import Mathlib

/-!
Verification of the separate-chaining hash table in `hash_table.py`.

The Python classes `Contact`, `Node` and `HashTable` are shallowly embedded:
a bucket's singly linked chain of `Node`s becomes a Lean `List Node`, the
`next` pointer being the list's tail; the table's fixed array `data` becomes
a `List Chain`; the raising constructor becomes an `Except`-returning
function; methods that mutate the table return the new table value.
-/

set_option autoImplicit false

namespace HashTablePy

/-- Embeds the Python class `Contact`: a contact name and phone number. -/
structure Contact where
  name : String
  number : String
deriving Repr, DecidableEq

/-- Embeds `Contact.__str__`, the Python rendering of a contact. -/
def Contact.toStr (c : Contact) : String := c.name ++ ": " ++ c.number

/-- Embeds the Python class `Node` used for separate chaining: the key and
the `Contact` payload.  The `next` pointer is represented by list structure. -/
structure Node where
  key : String
  value : Contact
deriving Repr, DecidableEq

/-- One bucket's chain, head first, in `next`-pointer order. -/
abbrev Chain := List Node

/-- Embeds the Python class `HashTable`: the stored `size` field and the
bucket array `data` (Python `None` bucket = empty chain). -/
structure HashTable where
  size : Nat
  data : List Chain
deriving Repr, DecidableEq

/-- Embeds `HashTable.__init__`: the Python `int` argument is an `Int`;
`size <= 0` raises `ValueError`, modelled as `Except.error`. -/
def HashTable.make (size : Int) : Except String HashTable :=
  if size ≤ 0 then Except.error "HashTable size must be positive"
  else Except.ok ⟨size.toNat, List.replicate size.toNat []⟩

/-- The loop of `hash_function`: `total = 0; for ch in key: total += ord(ch)`. -/
def strOrdSum (key : String) : Nat :=
  key.data.foldl (fun total ch => total + ch.toNat) 0

/-- Embeds `HashTable.hash_function`: sum of code points modulo `self.size`. -/
def HashTable.hash_function (t : HashTable) (key : String) : Nat :=
  strOrdSum key % t.size

/-- The chain-walking part of `HashTable.insert`: update the `number` of the
first node whose key matches, otherwise append a fresh node at the tail.
The Python `head is None` branch coincides with the `[]` case. -/
def insertChain (key number : String) : Chain → Chain
  | [] => [⟨key, ⟨key, number⟩⟩]
  | n :: rest =>
    if n.key = key then ⟨n.key, ⟨n.value.name, number⟩⟩ :: rest
    else n :: insertChain key number rest

/-- Embeds `HashTable.insert`: hash the key and rewrite that bucket. -/
def HashTable.insert (t : HashTable) (key number : String) : HashTable :=
  ⟨t.size, t.data.set (t.hash_function key)
      (insertChain key number (t.data.getD (t.hash_function key) []))⟩

/-- The chain-walking part of `HashTable.search`: the first matching node's
`Contact`, or `none` when the chain is exhausted. -/
def searchChain (key : String) : Chain → Option Contact
  | [] => none
  | n :: rest => if n.key = key then some n.value else searchChain key rest

/-- Embeds `HashTable.search`. -/
def HashTable.search (t : HashTable) (key : String) : Option Contact :=
  searchChain key (t.data.getD (t.hash_function key) [])

/-- The item printed for one node by `print_table`, namely `f"- {current.value}"`. -/
def nodeStr (n : Node) : String := "- " ++ n.value.toStr

/-- The per-node printed items of a chain, in chain order. -/
def chainItems (c : Chain) : List String := c.map nodeStr

/-- The chain part of a nonempty bucket's printed line: `print_table` prints
each item with a single trailing space separator (`end=" "`). -/
def renderChain (c : Chain) : String :=
  String.join (c.map (fun n => nodeStr n ++ " "))

/-- One printed line of `print_table` for bucket `i` holding chain `c`
(without the terminating newline). -/
def renderLine (i : Nat) (c : Chain) : String :=
  "Index " ++ toString i ++ ": " ++ (if c.isEmpty then "Empty" else renderChain c)

/-- Embeds `HashTable.print_table` as the list of printed lines. -/
def HashTable.render (t : HashTable) : List String :=
  (List.range t.size).map (fun i => renderLine i (t.data.getD i []))

/-- The keys of a chain, in chain order. -/
def chainKeys (c : Chain) : List String := c.map (fun n => n.key)

/-- Key `key` occurs somewhere in chain `c`. -/
def chainHas (key : String) (c : Chain) : Prop := key ∈ chainKeys c

instance (key : String) (c : Chain) : Decidable (chainHas key c) := by
  unfold chainHas; infer_instance

/-- Key `key` occurs somewhere in the table. -/
def HashTable.Present (t : HashTable) (key : String) : Prop :=
  ∃ c ∈ t.data, chainHas key c

instance (t : HashTable) (key : String) : Decidable (t.Present key) := by
  unfold HashTable.Present; infer_instance

/-- Number of chain positions across the whole table that hold `key`. -/
def HashTable.keyCount (t : HashTable) (key : String) : Nat :=
  (t.data.map (fun c => (chainKeys c).count key)).sum

/-- Total number of entries stored in the table. -/
def HashTable.entryCount (t : HashTable) : Nat :=
  (t.data.map List.length).sum

/-- Structural well-formedness: positive capacity and a bucket array of
exactly that length, as guaranteed by `HashTable.make`. -/
def HashTable.WF (t : HashTable) : Prop :=
  0 < t.size ∧ t.data.length = t.size

instance (t : HashTable) : Decidable t.WF := by
  unfold HashTable.WF; infer_instance

/-- Every stored key sits in the bucket its hash selects. -/
def HashTable.BucketOk (t : HashTable) : Prop :=
  ∀ i < t.data.length, ∀ k ∈ chainKeys (t.data.getD i []), t.hash_function k = i

instance (t : HashTable) : Decidable t.BucketOk := by
  unfold HashTable.BucketOk; infer_instance

/-- Folding a list of `(key, number)` insert operations over a table. -/
def HashTable.insertAll (t : HashTable) (ops : List (String × String)) : HashTable :=
  ops.foldl (fun s p => s.insert p.1 p.2) t

/-- The chain position (0-based) of the node `search` would return, mirroring
the traversal of `HashTable.search`. -/
def searchChainIdx (key : String) : Chain → Option Nat
  | [] => none
  | n :: rest =>
    if n.key = key then some 0 else (searchChainIdx key rest).map (· + 1)

/-- A stable handle into the table's owned storage: bucket index paired with
chain position, as returned by a search. -/
def HashTable.searchRef (t : HashTable) (key : String) : Option (Nat × Nat) :=
  (searchChainIdx key (t.data.getD (t.hash_function key) [])).map
    (fun j => (t.hash_function key, j))

/-- Dereference a handle: the contact currently stored at that position. -/
def HashTable.deref (t : HashTable) (r : Nat × Nat) : Option Contact :=
  ((t.data.getD r.1 []).get? r.2).map (fun n => n.value)

/-- Modelled from the spec: the hash value as the spec words it, the sum of
the numeric code point values of all characters reduced modulo capacity. -/
def specHash (capacity : Nat) (key : String) : Nat :=
  (key.data.map Char.toNat).sum % capacity

section ListHelpers

variable {α : Type _}

theorem getD_set_self (l : List α) (i : Nat) (x d : α) (h : i < l.length) :
    (l.set i x).getD i d = x := by
  simp [List.getD_eq_getElem?_getD, List.getElem?_set_self, h]

theorem getD_set_ne (l : List α) (i j : Nat) (x d : α) (h : j ≠ i) :
    (l.set i x).getD j d = l.getD j d := by
  simp [List.getD_eq_getElem?_getD, List.getElem?_set_ne (Ne.symm h)]

theorem getD_replicate (n i : Nat) (d : α) : (List.replicate n d).getD i d = d := by
  rcases Nat.lt_or_ge i n with h | h
  · simp [List.getD_eq_getElem?_getD, List.getElem?_replicate, h]
  · have hlen : (List.replicate n d).length ≤ i := by simpa using h
    simp [List.getD_eq_getElem?_getD, List.getElem?_eq_none hlen]

theorem getD_mem (l : List α) (i : Nat) (d : α) (h : i < l.length) :
    l.getD i d ∈ l := by
  rw [List.getD_eq_getElem?_getD, List.getElem?_eq_getElem h]
  exact List.getElem_mem h

theorem set_of_len_le (l : List α) (i : Nat) (x : α) (h : l.length ≤ i) :
    l.set i x = l := by
  induction l generalizing i with
  | nil => rfl
  | cons a tl ih =>
    cases i with
    | zero => exact absurd h (by simp)
    | succ j => simpa using ih j (by simpa using h)

theorem sum_map_set (f : α → Nat) (l : List α) (i : Nat) (x d : α)
    (h : i < l.length) :
    ((l.set i x).map f).sum + f (l.getD i d) = (l.map f).sum + f x := by
  induction l generalizing i with
  | nil => cases h
  | cons a tl ih =>
    cases i with
    | zero => simp [Nat.add_comm, Nat.add_left_comm]
    | succ j =>
      have hj : j < tl.length := by simpa using h
      have := ih j hj
      simp only [List.set_cons_succ, List.map_cons, List.sum_cons, List.getD_cons_succ]
      omega

theorem sum_map_eq_single (f : α → Nat) (l : List α) (i : Nat) (d : α)
    (h : ∀ j < l.length, j ≠ i → f (l.getD j d) = 0) :
    (l.map f).sum = if i < l.length then f (l.getD i d) else 0 := by
  induction l generalizing i with
  | nil => simp
  | cons a tl ih =>
    cases i with
    | zero =>
      have htl : (tl.map f).sum = if tl.length < tl.length then f (tl.getD tl.length d) else 0 := by
        refine ih tl.length ?_
        intro j hj _
        exact h (j + 1) (by simpa using hj) (by omega)
      simp only [if_neg (lt_irrefl _)] at htl
      simp [htl]
    | succ k =>
      have ha : f a = 0 := h 0 (by simp) (by omega)
      have htl : (tl.map f).sum = if k < tl.length then f (tl.getD k d) else 0 := by
        refine ih k ?_
        intro j hj hne
        exact h (j + 1) (by simpa using hj) (by omega)
      simp only [List.map, List.sum_cons, ha, Nat.zero_add, htl]
      by_cases hk : k < tl.length
      · rw [if_pos hk, if_pos (by simpa using Nat.succ_lt_succ hk)]
        simp [List.getD]
      · rw [if_neg hk, if_neg (by simpa using fun hlt => hk (Nat.lt_of_succ_lt_succ hlt))]

end ListHelpers

theorem getD_eq_default_of_le {α : Type _} (l : List α) (i : Nat) (d : α)
    (h : l.length ≤ i) : l.getD i d = d := by
  simp [List.getD_eq_getElem?_getD, List.getElem?_eq_none h]

theorem chainHas_cons (key : String) (n : Node) (rest : Chain) :
    chainHas key (n :: rest) ↔ key = n.key ∨ chainHas key rest := by
  simp [chainHas, chainKeys]

theorem chainHas_nil (key : String) : ¬ chainHas key [] := by
  simp [chainHas, chainKeys]

theorem insertChain_cons_pos (key num : String) (n : Node) (rest : Chain)
    (h : n.key = key) :
    insertChain key num (n :: rest) = ⟨n.key, ⟨n.value.name, num⟩⟩ :: rest := by
  simp [insertChain, h]

theorem insertChain_cons_neg (key num : String) (n : Node) (rest : Chain)
    (h : n.key ≠ key) :
    insertChain key num (n :: rest) = n :: insertChain key num rest := by
  simp [insertChain, h]

theorem chainKeys_cons (n : Node) (rest : Chain) :
    chainKeys (n :: rest) = n.key :: chainKeys rest := rfl

theorem searchChain_cons (key : String) (n : Node) (rest : Chain) :
    searchChain key (n :: rest) =
      if n.key = key then some n.value else searchChain key rest := rfl

theorem chainKeys_insertChain_pos (key num : String) (c : Chain)
    (h : chainHas key c) :
    chainKeys (insertChain key num c) = chainKeys c := by
  induction c with
  | nil => exact absurd h (chainHas_nil key)
  | cons n rest ih =>
    rw [chainHas_cons] at h
    by_cases hk : n.key = key
    · rw [insertChain_cons_pos key num n rest hk, chainKeys_cons, chainKeys_cons]
    · have hr : chainHas key rest := h.resolve_left fun he => hk he.symm
      rw [insertChain_cons_neg key num n rest hk, chainKeys_cons, ih hr, chainKeys_cons]

theorem chainKeys_insertChain_neg (key num : String) (c : Chain)
    (h : ¬ chainHas key c) :
    chainKeys (insertChain key num c) = chainKeys c ++ [key] := by
  induction c with
  | nil => simp [insertChain, chainKeys]
  | cons n rest ih =>
    rw [chainHas_cons] at h
    push_neg at h
    have hk : n.key ≠ key := fun he => h.1 he.symm
    rw [insertChain_cons_neg key num n rest hk, chainKeys_cons, ih h.2, chainKeys_cons]
    rfl

theorem searchChain_of_not_has (key : String) (c : Chain)
    (h : ¬ chainHas key c) : searchChain key c = none := by
  induction c with
  | nil => rfl
  | cons n rest ih =>
    rw [chainHas_cons] at h
    push_neg at h
    have hk : n.key ≠ key := fun he => h.1 he.symm
    simp [searchChain, hk, ih h.2]

theorem searchChain_insertChain_self (key num : String) (c : Chain)
    (h : ¬ chainHas key c) :
    searchChain key (insertChain key num c) = some ⟨key, num⟩ := by
  induction c with
  | nil => simp [insertChain, searchChain]
  | cons n rest ih =>
    rw [chainHas_cons] at h
    push_neg at h
    have hk : n.key ≠ key := fun he => h.1 he.symm
    simp [insertChain, searchChain, hk, ih h.2]

theorem searchChain_insertChain_ne (key k2 num : String) (c : Chain)
    (h : k2 ≠ key) :
    searchChain key (insertChain k2 num c) = searchChain key c := by
  induction c with
  | nil => simp [insertChain, searchChain, h]
  | cons n rest ih =>
    by_cases hk : n.key = k2
    · have hne : n.key ≠ key := by rw [hk]; exact h
      rw [insertChain_cons_pos k2 num n rest hk, searchChain_cons, searchChain_cons,
        if_neg hne, if_neg hne]
    · rw [insertChain_cons_neg k2 num n rest hk, searchChain_cons, searchChain_cons, ih]

theorem insertChain_decomp (key num : String) (c : Chain) (h : chainHas key c) :
    ∃ pre n post, c = pre ++ n :: post ∧ n.key = key ∧ ¬ chainHas key pre ∧
      insertChain key num c = pre ++ ⟨n.key, ⟨n.value.name, num⟩⟩ :: post := by
  induction c with
  | nil => exact absurd h (chainHas_nil key)
  | cons m rest ih =>
    by_cases hk : m.key = key
    · exact ⟨[], m, rest, by simp, hk, chainHas_nil key, by simp [insertChain, hk]⟩
    · rw [chainHas_cons] at h
      have hr : chainHas key rest := h.resolve_left fun he => hk he.symm
      obtain ⟨pre, n, post, hc, hn, hpre, hins⟩ := ih hr
      refine ⟨m :: pre, n, post, by simp [hc], hn, ?_, ?_⟩
      · rw [chainHas_cons]
        push_neg
        exact ⟨fun he => hk he.symm, hpre⟩
      · simp [insertChain, hk, hins]

theorem length_insertChain_pos (key num : String) (c : Chain)
    (h : chainHas key c) : (insertChain key num c).length = c.length := by
  have hkeys := congrArg List.length (chainKeys_insertChain_pos key num c h)
  simpa [chainKeys] using hkeys

theorem searchChainIdx_spec (key num : String) (c : Chain) (j : Nat)
    (h : searchChainIdx key c = some j) :
    ∃ n, c.get? j = some n ∧ n.key = key ∧ searchChain key c = some n.value ∧
      (insertChain key num c).get? j = some ⟨n.key, ⟨n.value.name, num⟩⟩ := by
  induction c generalizing j with
  | nil => simp [searchChainIdx] at h
  | cons m rest ih =>
    by_cases hk : m.key = key
    · simp only [searchChainIdx, if_pos hk, Option.some.injEq] at h
      subst h
      exact ⟨m, by simp, hk, by simp [searchChain, hk], by simp [insertChain, hk]⟩
    · simp only [searchChainIdx, if_neg hk, Option.map_eq_some'] at h
      obtain ⟨j2, hj2, rfl⟩ := h
      obtain ⟨n, hget, hn, hsearch, hins⟩ := ih j2 hj2
      refine ⟨n, by simpa using hget, hn, by simp [searchChain, hk, hsearch], ?_⟩
      rw [insertChain_cons_neg key num m rest hk]
      simpa using hins

theorem insert_data (t : HashTable) (key num : String) :
    (t.insert key num).data = t.data.set (t.hash_function key)
      (insertChain key num (t.data.getD (t.hash_function key) [])) := rfl

theorem insert_size (t : HashTable) (key num : String) :
    (t.insert key num).size = t.size := rfl

theorem hash_insert (t : HashTable) (key num k : String) :
    (t.insert key num).hash_function k = t.hash_function k := rfl

theorem hash_lt (t : HashTable) (k : String) (h : t.WF) :
    t.hash_function k < t.data.length := by
  rw [h.2]
  exact Nat.mod_lt _ h.1

theorem WF_insert (t : HashTable) (key num : String) (h : t.WF) :
    (t.insert key num).WF := by
  refine ⟨h.1, ?_⟩
  rw [insert_data, List.length_set]
  exact h.2

theorem BucketOk_insert (t : HashTable) (key num : String) (hWF : t.WF)
    (hB : t.BucketOk) : (t.insert key num).BucketOk := by
  intro i hi k hk
  rw [insert_data, List.length_set] at hi
  rw [hash_insert]
  by_cases hii : i = t.hash_function key
  · subst hii
    rw [insert_data, getD_set_self _ _ _ _ (hash_lt t key hWF)] at hk
    by_cases hhas : chainHas key (t.data.getD (t.hash_function key) [])
    · rw [chainKeys_insertChain_pos key num _ hhas] at hk
      exact hB _ (hash_lt t key hWF) k hk
    · rw [chainKeys_insertChain_neg key num _ hhas] at hk
      rcases List.mem_append.mp hk with hk | hk
      · exact hB _ (hash_lt t key hWF) k hk
      · rw [List.mem_singleton.mp hk]
  · rw [insert_data, getD_set_ne _ _ _ _ _ hii] at hk
    exact hB i hi k hk

theorem keyCount_eq_bucket (t : HashTable) (key : String) (hWF : t.WF)
    (hB : t.BucketOk) :
    t.keyCount key = (chainKeys (t.data.getD (t.hash_function key) [])).count key := by
  unfold HashTable.keyCount
  rw [sum_map_eq_single (fun c => (chainKeys c).count key) t.data (t.hash_function key) []]
  · rw [if_pos (hash_lt t key hWF)]
  · intro j hj hne
    refine List.count_eq_zero.mpr fun hmem => hne ?_
    exact (hB j hj key hmem).symm ▸ rfl

theorem keyUnique_insert (t : HashTable) (key num : String) (hWF : t.WF)
    (hB : t.BucketOk) (hU : ∀ k, t.keyCount k ≤ 1) :
    ∀ k, (t.insert key num).keyCount k ≤ 1 := by
  intro k
  have hWF2 := WF_insert t key num hWF
  have hB2 := BucketOk_insert t key num hWF hB
  rw [keyCount_eq_bucket _ k hWF2 hB2, hash_insert, insert_data]
  have hcount := (keyCount_eq_bucket t k hWF hB).symm
  by_cases hik : t.hash_function k = t.hash_function key
  · rw [hik, getD_set_self _ _ _ _ (hash_lt t key hWF)]
    by_cases hhas : chainHas key (t.data.getD (t.hash_function key) [])
    · rw [chainKeys_insertChain_pos key num _ hhas]
      rw [hik] at hcount
      rw [hcount]
      exact hU k
    · rw [chainKeys_insertChain_neg key num _ hhas, List.count_append]
      by_cases hkk : k = key
      · subst hkk
        have hzero : (chainKeys (t.data.getD (t.hash_function k) [])).count k = 0 :=
          List.count_eq_zero.mpr (hik ▸ hhas)
        rw [hik, hzero]
        simp
      · have hone : ([key] : List String).count k = 0 :=
          List.count_eq_zero.mpr fun hm => hkk (List.mem_singleton.mp hm)
        rw [hone, Nat.add_zero]
        rw [hik] at hcount
        rw [hcount]
        exact hU k
  · rw [getD_set_ne _ _ _ _ _ hik, hcount]
    exact hU k

/-- The conjunction of invariants maintained by every insert, holding for
every table reachable from a successful construction. -/
def HashTable.Inv (t : HashTable) : Prop :=
  t.WF ∧ t.BucketOk ∧ ∀ k, t.keyCount k ≤ 1

theorem Inv_insert (t : HashTable) (key num : String) (h : t.Inv) :
    (t.insert key num).Inv :=
  ⟨WF_insert t key num h.1, BucketOk_insert t key num h.1 h.2.1,
    keyUnique_insert t key num h.1 h.2.1 h.2.2⟩

theorem make_pos (c : Int) (t0 : HashTable) (h : HashTable.make c = Except.ok t0) :
    0 < c ∧ t0.size = c.toNat ∧ t0.data = List.replicate c.toNat [] := by
  unfold HashTable.make at h
  by_cases hc : c ≤ 0
  · rw [if_pos hc] at h
    cases h
  · rw [if_neg hc] at h
    cases h
    exact ⟨by omega, rfl, rfl⟩

theorem Inv_make (c : Int) (t0 : HashTable) (h : HashTable.make c = Except.ok t0) :
    t0.Inv := by
  obtain ⟨hc, hsize, hdata⟩ := make_pos c t0 h
  refine ⟨⟨by omega, by rw [hsize, hdata]; simp⟩, ?_, ?_⟩
  · intro i hi k hk
    rw [hdata, getD_replicate] at hk
    exact absurd hk (by simp [chainKeys])
  · intro k
    unfold HashTable.keyCount
    rw [hdata]
    simp [chainKeys]

theorem insertAll_nil (t : HashTable) : t.insertAll [] = t := rfl

theorem insertAll_cons (t : HashTable) (p : String × String)
    (rest : List (String × String)) :
    t.insertAll (p :: rest) = (t.insert p.1 p.2).insertAll rest := rfl

theorem Inv_insertAll (t : HashTable) (ops : List (String × String))
    (h : t.Inv) : (t.insertAll ops).Inv := by
  induction ops generalizing t with
  | nil => exact h
  | cons p rest ih =>
    rw [insertAll_cons]
    exact ih _ (Inv_insert t p.1 p.2 h)

theorem not_present_insert (t : HashTable) (key num k : String)
    (h : ¬ t.Present k) (hne : key ≠ k) : ¬ (t.insert key num).Present k := by
  rintro ⟨c, hc, hk⟩
  rw [insert_data] at hc
  rcases Nat.lt_or_ge (t.hash_function key) t.data.length with hlt | hge
  · rcases List.mem_or_eq_of_mem_set hc with hc | rfl
    · exact h ⟨c, hc, hk⟩
    · by_cases hhas : chainHas key (t.data.getD (t.hash_function key) [])
      · rw [chainHas, chainKeys_insertChain_pos key num _ hhas] at hk
        exact h ⟨_, getD_mem _ _ _ hlt, hk⟩
      · rw [chainHas, chainKeys_insertChain_neg key num _ hhas] at hk
        rcases List.mem_append.mp hk with hk | hk
        · exact h ⟨_, getD_mem _ _ _ hlt, hk⟩
        · exact hne (List.mem_singleton.mp hk).symm
  · rw [set_of_len_le _ _ _ hge] at hc
    exact h ⟨c, hc, hk⟩

theorem not_present_make (c : Int) (t0 : HashTable)
    (h : HashTable.make c = Except.ok t0) (k : String) : ¬ t0.Present k := by
  obtain ⟨hc, hsize, hdata⟩ := make_pos c t0 h
  rintro ⟨ch, hch, hk⟩
  rw [hdata] at hch
  rw [List.eq_of_mem_replicate hch] at hk
  exact chainHas_nil k hk

theorem search_eq_none_of_not_present (t : HashTable) (key : String)
    (h : ¬ t.Present key) : t.search key = none := by
  unfold HashTable.search
  rcases Nat.lt_or_ge (t.hash_function key) t.data.length with hlt | hge
  · exact searchChain_of_not_has _ _ fun hc => h ⟨_, getD_mem _ _ _ hlt, hc⟩
  · rw [getD_eq_default_of_le _ _ _ hge]
    rfl

theorem search_insert_self (t : HashTable) (key num : String) (hWF : t.WF)
    (h : ¬ t.Present key) : (t.insert key num).search key = some ⟨key, num⟩ := by
  unfold HashTable.search
  rw [hash_insert, insert_data, getD_set_self _ _ _ _ (hash_lt t key hWF)]
  exact searchChain_insertChain_self key num _
    fun hc => h ⟨_, getD_mem _ _ _ (hash_lt t key hWF), hc⟩

theorem searchChain_append (key : String) (pre post : Chain) (n : Node)
    (hpre : ¬ chainHas key pre) (hn : n.key = key) :
    searchChain key (pre ++ n :: post) = some n.value := by
  induction pre with
  | nil => simp [searchChain_cons, hn]
  | cons m rest ih =>
    rw [chainHas_cons] at hpre
    push_neg at hpre
    have hk : m.key ≠ key := fun he => hpre.1 he.symm
    simpa [searchChain_cons, hk] using ih hpre.2

theorem not_present_insertAll (t : HashTable) (ops : List (String × String))
    (K : String) (h : ¬ t.Present K) (hK : ∀ p ∈ ops, p.1 ≠ K) :
    ¬ (t.insertAll ops).Present K := by
  induction ops generalizing t with
  | nil => exact h
  | cons p rest ih =>
    rw [insertAll_cons]
    exact ih _ (not_present_insert t p.1 p.2 K h (hK p (by simp)))
      fun q hq => hK q (by simp [hq])

/-- Inserting two distinct keys with colliding hashes into a freshly
constructed table: the bucket ends up with exactly the two nodes in
insertion order and both keys are retrievable. -/
theorem fresh_two_collide (c : Int) (t0 : HashTable)
    (hmk : HashTable.make c = Except.ok t0) (K1 N1 K2 N2 : String)
    (hne : K1 ≠ K2) (hcol : t0.hash_function K1 = t0.hash_function K2) :
    ((t0.insert K1 N1).insert K2 N2).data.getD (t0.hash_function K1) [] =
      [⟨K1, ⟨K1, N1⟩⟩, ⟨K2, ⟨K2, N2⟩⟩] ∧
    ((t0.insert K1 N1).insert K2 N2).search K1 = some ⟨K1, N1⟩ ∧
    ((t0.insert K1 N1).insert K2 N2).search K2 = some ⟨K2, N2⟩ := by
  obtain ⟨hc, hsize, hdata⟩ := make_pos c t0 hmk
  have hWF0 : t0.WF := ⟨by omega, by rw [hsize, hdata]; simp⟩
  have hilt : t0.hash_function K1 < t0.data.length := hash_lt t0 K1 hWF0
  have hchain0 : t0.data.getD (t0.hash_function K1) [] = [] := by
    rw [hdata]
    exact getD_replicate _ _ _
  have h1data : (t0.insert K1 N1).data =
      t0.data.set (t0.hash_function K1) [⟨K1, ⟨K1, N1⟩⟩] := by
    rw [insert_data, hchain0]
    rfl
  have h1chain : (t0.insert K1 N1).data.getD (t0.hash_function K1) [] =
      [⟨K1, ⟨K1, N1⟩⟩] := by
    rw [h1data]
    exact getD_set_self _ _ _ _ hilt
  have hh2 : (t0.insert K1 N1).hash_function K2 = t0.hash_function K1 := by
    rw [hash_insert]
    exact hcol.symm
  have h2data : ((t0.insert K1 N1).insert K2 N2).data =
      (t0.insert K1 N1).data.set (t0.hash_function K1)
        [⟨K1, ⟨K1, N1⟩⟩, ⟨K2, ⟨K2, N2⟩⟩] := by
    rw [insert_data, hh2, h1chain,
      insertChain_cons_neg K2 N2 ⟨K1, ⟨K1, N1⟩⟩ [] hne]
    rfl
  have hlen1 : t0.hash_function K1 < (t0.insert K1 N1).data.length := by
    rw [h1data, List.length_set]
    exact hilt
  have h2chain : ((t0.insert K1 N1).insert K2 N2).data.getD (t0.hash_function K1) [] =
      [⟨K1, ⟨K1, N1⟩⟩, ⟨K2, ⟨K2, N2⟩⟩] := by
    rw [h2data]
    exact getD_set_self _ _ _ _ hlen1
  refine ⟨h2chain, ?_, ?_⟩
  · unfold HashTable.search
    rw [show ((t0.insert K1 N1).insert K2 N2).hash_function K1 = t0.hash_function K1
      from rfl, h2chain]
    simp [searchChain_cons]
  · unfold HashTable.search
    rw [show ((t0.insert K1 N1).insert K2 N2).hash_function K2 = t0.hash_function K2
      from rfl, ← hcol, h2chain]
    simp [searchChain_cons, hne]

/-- C1: insert-then-search round trip.  For every key `K` and number `N`
such that `K` was never inserted before (starting from a freshly constructed
table and any sequence of inserts avoiding `K`), `search K` after
`insert K N` returns a record whose name is `K` and whose number is `N`. -/
theorem C1_insert_search_roundtrip (c : Int) (t0 : HashTable)
    (hmk : HashTable.make c = Except.ok t0) (ops : List (String × String))
    (K N : String) (hK : ∀ p ∈ ops, p.1 ≠ K) :
    ((t0.insertAll ops).insert K N).search K = some ⟨K, N⟩ :=
  search_insert_self (t0.insertAll ops) K N
    (Inv_insertAll t0 ops (Inv_make c t0 hmk)).1
    (not_present_insertAll t0 ops K (not_present_make c t0 hmk K) hK)

theorem C1_insert_search_roundtrip_witness :
    (((HashTable.mk 10 (List.replicate 10 [])).insertAll
        [("John", "909-876-1234")]).insert "Rebecca" "111-555-0002").search
      "Rebecca" = some ⟨"Rebecca", "111-555-0002"⟩ :=
  C1_insert_search_roundtrip 10 (HashTable.mk 10 (List.replicate 10 []))
    rfl [("John", "909-876-1234")] "Rebecca" "111-555-0002" (by decide)

/-- C2: key uniqueness invariant.  After any sequence of inserts starting
from a freshly constructed table, each distinct key occupies at most one
chain position across all buckets of the whole table. -/
theorem C2_key_uniqueness (c : Int) (t0 : HashTable)
    (hmk : HashTable.make c = Except.ok t0) (ops : List (String × String))
    (K : String) : (t0.insertAll ops).keyCount K ≤ 1 :=
  (Inv_insertAll t0 ops (Inv_make c t0 hmk)).2.2 K

theorem C2_key_uniqueness_witness :
    ((HashTable.mk 10 (List.replicate 10 [])).insertAll
      [("Amy", "111-222-3333"), ("May", "222-333-1111"),
        ("Amy", "999-999-9999")]).keyCount "Amy" ≤ 1 :=
  C2_key_uniqueness 10 (HashTable.mk 10 (List.replicate 10 [])) rfl
    [("Amy", "111-222-3333"), ("May", "222-333-1111"),
      ("Amy", "999-999-9999")] "Amy"

/-- C6: the hash function.  `hash_function` equals the sum of the code
point values of the key's characters reduced modulo the capacity (the
spec-modelled `specHash`); when the capacity is positive the result lies
in `[0, size)`; and the empty-string key hashes to index 0.  Determinism
and absence of side effects are definitional: the embedding is a pure
function of the table's `size` and the key. -/
theorem C6_hash_function (t : HashTable) (K : String) :
    t.hash_function K = specHash t.size K ∧
    (0 < t.size → t.hash_function K < t.size) ∧
    t.hash_function "" = 0 := by
  refine ⟨?_, fun h => Nat.mod_lt _ h, Nat.zero_mod _⟩
  unfold HashTable.hash_function specHash strOrdSum
  rw [List.sum_eq_foldl, List.foldl_map]

theorem C6_hash_function_witness :
    (HashTable.mk 10 (List.replicate 10 [])).hash_function "John" =
      specHash 10 "John" ∧
    (HashTable.mk 10 (List.replicate 10 [])).hash_function "John" < 10 ∧
    (HashTable.mk 10 (List.replicate 10 [])).hash_function "" = 0 :=
  ⟨(C6_hash_function (HashTable.mk 10 (List.replicate 10 [])) "John").1,
    (C6_hash_function (HashTable.mk 10 (List.replicate 10 [])) "John").2.1
      (by decide),
    (C6_hash_function (HashTable.mk 10 (List.replicate 10 [])) "John").2.2⟩

/-- C7: not-found contract.  Searching for a key that was never inserted
(starting from a freshly constructed table and any sequence of inserts
avoiding it) returns `none`, the not-found indicator — not an error and not
a default record.  The embedding of `search` is a pure function returning
only the optional record, so it mutates nothing. -/
theorem C7_search_not_found (c : Int) (t0 : HashTable)
    (hmk : HashTable.make c = Except.ok t0) (ops : List (String × String))
    (K : String) (hK : ∀ p ∈ ops, p.1 ≠ K) :
    (t0.insertAll ops).search K = none :=
  search_eq_none_of_not_present (t0.insertAll ops) K
    (not_present_insertAll t0 ops K (not_present_make c t0 hmk K) hK)

theorem C7_search_not_found_witness :
    ((HashTable.mk 10 (List.replicate 10 [])).insertAll
      [("John", "909-876-1234"), ("Rebecca", "111-555-0002")]).search
      "Chris" = none :=
  C7_search_not_found 10 (HashTable.mk 10 (List.replicate 10 [])) rfl
    [("John", "909-876-1234"), ("Rebecca", "111-555-0002")] "Chris" (by decide)

/-- C10: frame property of insert.  `insert K N` leaves every bucket at an
index other than `hash_function K` exactly unchanged, and leaves the
table's capacity unchanged. -/
theorem C10_insert_frame (t : HashTable) (K N : String) (j : Nat)
    (hj : j ≠ t.hash_function K) :
    (t.insert K N).data.getD j [] = t.data.getD j [] ∧
    (t.insert K N).size = t.size :=
  ⟨by rw [insert_data]; exact getD_set_ne _ _ _ _ _ hj, rfl⟩

theorem C10_insert_frame_witness :
    ((HashTable.mk 10 (List.replicate 10 [])).insert "John"
        "909-876-1234").data.getD 0 [] =
      (HashTable.mk 10 (List.replicate 10 [])).data.getD 0 [] ∧
    ((HashTable.mk 10 (List.replicate 10 [])).insert "John"
        "909-876-1234").size = 10 :=
  C10_insert_frame (HashTable.mk 10 (List.replicate 10 [])) "John"
    "909-876-1234" 0 (by decide)

/-- C3: update semantics of insert.  When `K` is already present (exactly
once, as every sequence of inserts guarantees), `insert K N2` overwrites
only the existing entry's number field in place: the bucket keeps the same
nodes before and after the matching one, no new entry is created, the
total entry count is unchanged, exactly one entry for `K` remains, and a
search now yields the number from the most recent insert. -/
theorem C3_insert_update (t : HashTable) (K N2 : String) (hWF : t.WF)
    (hB : t.BucketOk) (hcnt : t.keyCount K = 1) :
    (∃ pre n post,
        t.data.getD (t.hash_function K) [] = pre ++ n :: post ∧
        n.key = K ∧ ¬ chainHas K pre ∧
        (t.insert K N2).data.getD (t.hash_function K) [] =
          pre ++ (⟨n.key, ⟨n.value.name, N2⟩⟩ : Node) :: post) ∧
    (t.insert K N2).entryCount = t.entryCount ∧
    (t.insert K N2).keyCount K = 1 ∧
    (∃ nm, (t.insert K N2).search K = some ⟨nm, N2⟩) := by
  have hilt := hash_lt t K hWF
  have hcount : (chainKeys (t.data.getD (t.hash_function K) [])).count K = 1 :=
    (keyCount_eq_bucket t K hWF hB).symm.trans hcnt
  have hhas : chainHas K (t.data.getD (t.hash_function K) []) :=
    List.count_pos_iff.mp (by omega)
  obtain ⟨pre, n, post, hdecomp, hnk, hpre, hins⟩ :=
    insertChain_decomp K N2 (t.data.getD (t.hash_function K) []) hhas
  have hnew : (t.insert K N2).data.getD (t.hash_function K) [] =
      insertChain K N2 (t.data.getD (t.hash_function K) []) := by
    rw [insert_data]
    exact getD_set_self _ _ _ _ hilt
  refine ⟨⟨pre, n, post, hdecomp, hnk, hpre, by rw [hnew, hins]⟩, ?_, ?_, ?_⟩
  · unfold HashTable.entryCount
    rw [insert_data]
    have hlen := length_insertChain_pos K N2 (t.data.getD (t.hash_function K) []) hhas
    have hsum := sum_map_set List.length t.data (t.hash_function K)
      (insertChain K N2 (t.data.getD (t.hash_function K) [])) [] hilt
    omega
  · have hWF2 := WF_insert t K N2 hWF
    have hB2 := BucketOk_insert t K N2 hWF hB
    rw [keyCount_eq_bucket _ K hWF2 hB2, hash_insert, hnew,
      chainKeys_insertChain_pos K N2 _ hhas]
    exact hcount
  · refine ⟨n.value.name, ?_⟩
    unfold HashTable.search
    rw [hash_insert, hnew, hins]
    exact searchChain_append K pre post _ hpre hnk

theorem C3_insert_update_witness :
    (∃ pre n post,
        (HashTable.mk 1 [[⟨"a", ⟨"a", "1"⟩⟩]]).data.getD
            ((HashTable.mk 1 [[⟨"a", ⟨"a", "1"⟩⟩]]).hash_function "a") [] =
          pre ++ n :: post ∧
        n.key = "a" ∧ ¬ chainHas "a" pre ∧
        ((HashTable.mk 1 [[⟨"a", ⟨"a", "1"⟩⟩]]).insert "a" "2").data.getD
            ((HashTable.mk 1 [[⟨"a", ⟨"a", "1"⟩⟩]]).hash_function "a") [] =
          pre ++ (⟨n.key, ⟨n.value.name, "2"⟩⟩ : Node) :: post) ∧
    ((HashTable.mk 1 [[⟨"a", ⟨"a", "1"⟩⟩]]).insert "a" "2").entryCount =
      (HashTable.mk 1 [[⟨"a", ⟨"a", "1"⟩⟩]]).entryCount ∧
    ((HashTable.mk 1 [[⟨"a", ⟨"a", "1"⟩⟩]]).insert "a" "2").keyCount "a" = 1 ∧
    (∃ nm, ((HashTable.mk 1 [[⟨"a", ⟨"a", "1"⟩⟩]]).insert "a" "2").search "a" =
      some ⟨nm, "2"⟩) :=
  C3_insert_update (HashTable.mk 1 [[⟨"a", ⟨"a", "1"⟩⟩]]) "a" "2"
    (by decide) (by decide) (by decide)

/-- C4: collision handling.  For distinct keys `K1 ≠ K2` hashing to the
same index, inserting both into a freshly constructed table (so neither
was previously present) makes both independently retrievable with their
own numbers, and the bucket's chain holds exactly the two entries in
insertion order: first-inserted at the head, second appended at the tail. -/
theorem C4_collision (c : Int) (t0 : HashTable)
    (hmk : HashTable.make c = Except.ok t0) (K1 N1 K2 N2 : String)
    (hne : K1 ≠ K2) (hcol : t0.hash_function K1 = t0.hash_function K2) :
    ((t0.insert K1 N1).insert K2 N2).search K1 = some ⟨K1, N1⟩ ∧
    ((t0.insert K1 N1).insert K2 N2).search K2 = some ⟨K2, N2⟩ ∧
    ((t0.insert K1 N1).insert K2 N2).data.getD (t0.hash_function K1) [] =
      [⟨K1, ⟨K1, N1⟩⟩, ⟨K2, ⟨K2, N2⟩⟩] := by
  obtain ⟨hchain, h1, h2⟩ := fresh_two_collide c t0 hmk K1 N1 K2 N2 hne hcol
  exact ⟨h1, h2, hchain⟩

theorem C4_collision_witness :
    (((HashTable.mk 10 (List.replicate 10 [])).insert "Amy"
          "111-222-3333").insert "May" "222-333-1111").search "Amy" =
        some ⟨"Amy", "111-222-3333"⟩ ∧
    (((HashTable.mk 10 (List.replicate 10 [])).insert "Amy"
          "111-222-3333").insert "May" "222-333-1111").search "May" =
        some ⟨"May", "222-333-1111"⟩ ∧
    (((HashTable.mk 10 (List.replicate 10 [])).insert "Amy"
          "111-222-3333").insert "May" "222-333-1111").data.getD
        ((HashTable.mk 10 (List.replicate 10 [])).hash_function "Amy") [] =
      [⟨"Amy", ⟨"Amy", "111-222-3333"⟩⟩, ⟨"May", ⟨"May", "222-333-1111"⟩⟩] :=
  C4_collision 10 (HashTable.mk 10 (List.replicate 10 [])) rfl "Amy"
    "111-222-3333" "May" "222-333-1111" (by decide) (by decide)

/-- C5: construction.  For every positive capacity the constructor succeeds
and yields a table with exactly that many buckets, all empty, whose render
is exactly one line per bucket reporting it as empty; for capacity ≤ 0 the
constructor fails with the `ValueError` (`InvalidArgument`) and no table is
produced. -/
theorem C5_construction (c : Int) :
    (0 < c →
      HashTable.make c =
        Except.ok (HashTable.mk c.toNat (List.replicate c.toNat [])) ∧
      (HashTable.mk c.toNat (List.replicate c.toNat [])).render =
        (List.range c.toNat).map
          (fun i => "Index " ++ toString i ++ ": Empty")) ∧
    (c ≤ 0 → HashTable.make c = Except.error "HashTable size must be positive") := by
  constructor
  · intro hc
    constructor
    · unfold HashTable.make
      rw [if_neg (by omega)]
    · unfold HashTable.render
      refine List.map_congr_left fun i hi => ?_
      show renderLine i ((List.replicate c.toNat ([] : Chain)).getD i []) = _
      rw [getD_replicate]
      show ("Index " ++ toString i ++ ": ") ++ "Empty" = _
      rw [String.append_assoc]
      exact congrArg (fun s => "Index " ++ toString i ++ s)
        (show (": " ++ "Empty" : String) = ": Empty" from by decide)
  · intro hc
    unfold HashTable.make
    rw [if_pos hc]

theorem C5_construction_witness :
    (HashTable.make 3 =
        Except.ok (HashTable.mk (3 : Int).toNat (List.replicate (3 : Int).toNat [])) ∧
      (HashTable.mk (3 : Int).toNat (List.replicate (3 : Int).toNat [])).render =
        (List.range (3 : Int).toNat).map
          (fun i => "Index " ++ toString i ++ ": Empty")) ∧
    HashTable.make (-1) = Except.error "HashTable size must be positive" :=
  ⟨(C5_construction 3).1 (by decide), (C5_construction (-1)).2 (by decide)⟩

/-- C8: pinned scenario.  After `insert "Amy" "111-222-3333"` then
`insert "May" "222-333-1111"` on a freshly constructed table, both land in
the same bucket (the character-code sums of the two names are equal), and
that bucket's chain renders, item by item in chain order separated by
single spaces, exactly as `"- Amy: 111-222-3333 - May: 222-333-1111"`. -/
theorem C8_amy_may_scenario (c : Int) (t0 : HashTable)
    (hmk : HashTable.make c = Except.ok t0) :
    t0.hash_function "Amy" = t0.hash_function "May" ∧
    ((t0.insert "Amy" "111-222-3333").insert "May" "222-333-1111").data.getD
        (t0.hash_function "Amy") [] =
      [⟨"Amy", ⟨"Amy", "111-222-3333"⟩⟩, ⟨"May", ⟨"May", "222-333-1111"⟩⟩] ∧
    String.intercalate " "
        (chainItems
          (((t0.insert "Amy" "111-222-3333").insert "May"
              "222-333-1111").data.getD (t0.hash_function "Amy") [])) =
      "- Amy: 111-222-3333 - May: 222-333-1111" := by
  have hcol : t0.hash_function "Amy" = t0.hash_function "May" := by
    unfold HashTable.hash_function
    rw [show strOrdSum "Amy" = strOrdSum "May" from by decide]
  obtain ⟨hchain, -, -⟩ := fresh_two_collide c t0 hmk "Amy" "111-222-3333"
    "May" "222-333-1111" (by decide) hcol
  refine ⟨hcol, hchain, ?_⟩
  rw [hchain]
  rfl

theorem C8_amy_may_scenario_witness :
    (HashTable.mk 10 (List.replicate 10 [])).hash_function "Amy" =
      (HashTable.mk 10 (List.replicate 10 [])).hash_function "May" ∧
    (((HashTable.mk 10 (List.replicate 10 [])).insert "Amy"
          "111-222-3333").insert "May" "222-333-1111").data.getD
        ((HashTable.mk 10 (List.replicate 10 [])).hash_function "Amy") [] =
      [⟨"Amy", ⟨"Amy", "111-222-3333"⟩⟩, ⟨"May", ⟨"May", "222-333-1111"⟩⟩] ∧
    String.intercalate " "
        (chainItems
          ((((HashTable.mk 10 (List.replicate 10 [])).insert "Amy"
              "111-222-3333").insert "May" "222-333-1111").data.getD
            ((HashTable.mk 10 (List.replicate 10 [])).hash_function "Amy") [])) =
      "- Amy: 111-222-3333 - May: 222-333-1111" :=
  C8_amy_may_scenario 10 (HashTable.mk 10 (List.replicate 10 [])) rfl

/-- C9: live-handle aliasing.  The handle returned by a successful search
is a stable position into the table's own storage: dereferencing it gives
exactly the record `search` returns, and after `insert K N2` the same
handle observes the in-place update, holding the same name with the new
number. -/
theorem C9_live_handle (t : HashTable) (K : String) (r : Nat × Nat)
    (hWF : t.WF) (href : t.searchRef K = some r) :
    ∃ ct, t.deref r = some ct ∧ t.search K = some ct ∧
      ∀ N2, (t.insert K N2).deref r = some ⟨ct.name, N2⟩ := by
  unfold HashTable.searchRef at href
  rw [Option.map_eq_some'] at href
  obtain ⟨j, hj, hr⟩ := href
  subst hr
  obtain ⟨n, hget, hnk, hsearch, -⟩ := searchChainIdx_spec K "" _ j hj
  refine ⟨n.value, ?_, ?_, ?_⟩
  · show ((t.data.getD (t.hash_function K) []).get? j).map (fun m => m.value) =
      some n.value
    rw [hget]
    rfl
  · unfold HashTable.search
    exact hsearch
  · intro N2
    obtain ⟨n2, hget2, hnk2, hsearch2, hins2⟩ := searchChainIdx_spec K N2 _ j hj
    have hn2 : n2 = n := by
      have := hget2.symm.trans hget
      exact Option.some.inj this
    subst hn2
    show (((t.insert K N2).data.getD (t.hash_function K) []).get? j).map
      (fun m => m.value) = some ⟨n2.value.name, N2⟩
    rw [insert_data, getD_set_self _ _ _ _ (hash_lt t K hWF), hins2]
    rfl

theorem C9_live_handle_witness :
    ∃ ct, (HashTable.mk 1 [[⟨"b", ⟨"b", "7"⟩⟩]]).deref (0, 0) = some ct ∧
      (HashTable.mk 1 [[⟨"b", ⟨"b", "7"⟩⟩]]).search "b" = some ct ∧
      ∀ N2, ((HashTable.mk 1 [[⟨"b", ⟨"b", "7"⟩⟩]]).insert "b" N2).deref (0, 0) =
        some ⟨ct.name, N2⟩ :=
  C9_live_handle (HashTable.mk 1 [[⟨"b", ⟨"b", "7"⟩⟩]]) "b" (0, 0)
    (by decide) (by decide)

end HashTablePy
